import Mathlib

/-!
Verification of the static FIFO ring buffer (`src/FIFO.hpp`).

The C++ class `Fifo<T, t_size>` is embedded shallowly: the backing
`std::array<T, t_size>` becomes a `List α` of length `cap`, the three
`size_t` members become `Nat` fields, and each member function becomes a
Lean function returning its result together with the updated state.
`size_t` arithmetic in the source never wraps on states satisfying the
class invariant (`m_nbElements ≤ t_size`, indices < `t_size`), which the
theorems below carry as a hypothesis where it matters, so plain `Nat`
arithmetic is a faithful translation there.
-/

namespace StaticFifo

/-- State of `Fifo<T, t_size>`: members `m_buffer`, `m_readIdx`,
`m_writeIdx`, `m_nbElements` of `src/FIFO.hpp`.  The capacity `cap`
mirrors the template parameter `t_size`. -/
structure Fifo (α : Type) (cap : Nat) where
  buffer : List α
  readIdx : Nat
  writeIdx : Nat
  nbElements : Nat
  deriving Repr, DecidableEq

variable {α : Type} [Inhabited α] {cap : Nat}

/-- `Fifo()` default constructor: zero indices, value-initialized storage. -/
def Fifo.new (α : Type) [Inhabited α] (cap : Nat) : Fifo α cap :=
  { buffer := List.replicate cap default, readIdx := 0, writeIdx := 0, nbElements := 0 }

/-- `getCount()`. -/
def Fifo.getCount (f : Fifo α cap) : Nat := f.nbElements

/-- `reset()`. -/
def Fifo.reset (f : Fifo α cap) : Fifo α cap :=
  { f with writeIdx := 0, readIdx := 0, nbElements := 0 }

/-- `pop_back(T *dest)`: the out-parameter `*dest` is modelled by taking its
current value `dest` and returning the value it holds after the call, next
to the `bool` result and the new state. -/
def Fifo.pop_back (f : Fifo α cap) (dest : α) : Bool × α × Fifo α cap :=
  if f.nbElements ≠ 0 then
    (true, f.buffer.getD f.readIdx default,
      { f with readIdx := (f.readIdx + 1) % cap, nbElements := f.nbElements - 1 })
  else
    (false, dest, f)

/-- The `for` loop of `push(std::span<const T>, bool)`: writes the source
elements one at a time, threading the `nbElementsCopied` counter. -/
def Fifo.pushLoop (f : Fifo α cap) (src : List α) (copied : Nat) : Fifo α cap × Nat :=
  match src with
  | [] => (f, copied)
  | e :: rest =>
    let f1 : Fifo α cap :=
      { f with buffer := f.buffer.set f.writeIdx e, writeIdx := (f.writeIdx + 1) % cap }
    if f1.nbElements < cap then
      Fifo.pushLoop { f1 with nbElements := f1.nbElements + 1 } rest (copied + 1)
    else
      Fifo.pushLoop { f1 with readIdx := f1.writeIdx } rest copied

/-- `push(std::span<const T> src, bool overwrite)`: returns the new state and
the `size_t` result (`nbElementsCopied`). -/
def Fifo.push (f : Fifo α cap) (src : List α) (overwrite : Bool) : Fifo α cap × Nat :=
  if ¬overwrite ∧ src.length > cap - f.nbElements then
    (f, 0)
  else
    Fifo.pushLoop f src 0

/-- `push(T var, bool overwrite)`: forwards to the span overload through the
pointer overload with length 1, and returns whether the copied count is
nonzero. -/
def Fifo.push1 (f : Fifo α cap) (v : α) (overwrite : Bool) : Bool × Fifo α cap :=
  let r := Fifo.push f [v] overwrite
  (r.2 ≠ 0, r.1)

/-- `drop(size_t size)`. -/
def Fifo.drop (f : Fifo α cap) (size : Nat) : Fifo α cap × Nat :=
  let droppedSamples := min f.nbElements size
  ({ f with nbElements := f.nbElements - droppedSamples,
            readIdx := (f.readIdx + droppedSamples) % cap }, droppedSamples)

/-- The `while` loop of `pull`: returns the sequence of elements written to
`destination`, the state after the loop, and the final value of `availSpace`. -/
def Fifo.pullLoop (f : Fifo α cap) (availSpace : Nat) : List α × Fifo α cap × Nat :=
  match availSpace with
  | 0 => ([], f, 0)
  | a + 1 =>
    if f.nbElements > 0 then
      let e := f.buffer.getD f.readIdx default
      let f1 : Fifo α cap :=
        { f with readIdx := (f.readIdx + 1) % cap, nbElements := f.nbElements - 1 }
      let r := Fifo.pullLoop f1 a
      (e :: r.1, r.2.1, r.2.2)
    else
      ([], f, a + 1)

/-- `pull(T *destination, size_t availSpace)`: returns the elements written
to `destination`, the new state, and the `size_t` result
(`nbElementsToCopy - availSpace`). -/
def Fifo.pull (f : Fifo α cap) (availSpace : Nat) : List α × Fifo α cap × Nat :=
  let r := Fifo.pullLoop f availSpace
  (r.1, r.2.1, availSpace - r.2.2)

/-- The `while` loop of `read`: works on the local copies `readIdx` and
`remainInFifo`, never touching the members; returns the elements written to
`destination` and the final value of `availSpace`. -/
def Fifo.readLoop (c : Nat) (buffer : List α) (readIdx remainInFifo availSpace : Nat) :
    List α × Nat :=
  match availSpace with
  | 0 => ([], 0)
  | a + 1 =>
    if remainInFifo > 0 then
      let e := buffer.getD readIdx default
      let r := Fifo.readLoop c buffer ((readIdx + 1) % c) (remainInFifo - 1) a
      (e :: r.1, r.2)
    else
      ([], a + 1)

/-- `read(T *destination, size_t availSpace)`: returns the elements written
to `destination`, the state after the call (the method mutates no member),
and the `size_t` result. -/
def Fifo.read (f : Fifo α cap) (availSpace : Nat) : List α × Fifo α cap × Nat :=
  let r := Fifo.readLoop cap f.buffer f.readIdx f.nbElements availSpace
  (r.1, f, availSpace - r.2)

/-- The comparison loop of `operator==`: `n` remaining iterations, current
physical indices `idx` and `otherIdx`. -/
def Fifo.eqLoop [DecidableEq α] (a b : Fifo α cap) (idx otherIdx n : Nat) : Bool :=
  match n with
  | 0 => true
  | k + 1 =>
    if a.buffer.getD idx default ≠ b.buffer.getD otherIdx default then
      false
    else
      Fifo.eqLoop a b ((idx + 1) % cap) ((otherIdx + 1) % cap) k

/-- `operator==(const Fifo<T, t_size> &other)`. -/
def Fifo.beq [DecidableEq α] (a b : Fifo α cap) : Bool :=
  if a.nbElements ≠ b.nbElements then false
  else Fifo.eqLoop a b a.readIdx b.readIdx a.nbElements

/-- The logical contents of the buffer, oldest first: element `i` lives at
physical slot `(m_readIdx + i) % t_size`, as `operator[]` computes it. -/
def Fifo.toList (f : Fifo α cap) : List α :=
  (List.range f.nbElements).map (fun i => f.buffer.getD ((f.readIdx + i) % cap) default)

/-- Well-formedness: the class invariant of `Fifo<T, t_size>` (storage has
`t_size` slots, indices in range, `m_nbElements ≤ t_size`, and `m_writeIdx`
is `m_readIdx` advanced by `m_nbElements` modulo `t_size`). -/
def Fifo.WF (f : Fifo α cap) : Prop :=
  f.buffer.length = cap ∧ f.readIdx < cap ∧ f.writeIdx < cap ∧
    f.nbElements ≤ cap ∧ f.writeIdx = (f.readIdx + f.nbElements) % cap

instance (f : Fifo α cap) : Decidable f.WF := by
  unfold Fifo.WF
  infer_instance

/-- One call of the public mutating interface (`push`/`pop_back`/`pull`/
`read`/`drop`/`reset`), with its arguments. -/
inductive Op (α : Type) where
  | pushOp (src : List α) (overwrite : Bool)
  | popOp
  | pullOp (n : Nat)
  | readOp (n : Nat)
  | dropOp (n : Nat)
  | resetOp

/-- The state after one operation (results discarded). -/
def applyOp (f : Fifo α cap) : Op α → Fifo α cap
  | .pushOp src ow => (f.push src ow).1
  | .popOp => (f.pop_back default).2.2
  | .pullOp n => (f.pull n).2.1
  | .readOp n => (f.read n).2.1
  | .dropOp n => (f.drop n).1
  | .resetOp => f.reset

/-- The state after a sequence of operations. -/
def runOps (f : Fifo α cap) (ops : List (Op α)) : Fifo α cap :=
  ops.foldl applyOp f

/-- A sequence of non-overwrite bulk pushes. -/
def pushSeq (f : Fifo α cap) (css : List (List α)) : Fifo α cap :=
  css.foldl (fun g cs => (g.push cs false).1) f

/-- The elements delivered by a sequence of `pull` calls with the given
destination sizes, in delivery order. -/
def pullSeq (f : Fifo α cap) (ns : List Nat) : List α :=
  match ns with
  | [] => []
  | n :: rest =>
    let r := f.pull n
    r.1 ++ pullSeq r.2.1 rest

/-- The empty `Fifo<int, 5>` of the spec's Capacity-5 examples. -/
def empty5 : Fifo Int 5 := Fifo.new Int 5

/-- `Fifo<int, 5>` holding `{1,2,3,4,5}`, full, as obtained by pushing those
five elements into an empty buffer. -/
def full5 : Fifo Int 5 := (empty5.push [1, 2, 3, 4, 5] false).1

lemma toList_length (f : Fifo α cap) : f.toList.length = f.nbElements := by
  simp [Fifo.toList]

lemma toList_nil (f : Fifo α cap) (h : f.nbElements = 0) : f.toList = [] := by
  simp [Fifo.toList, h]

omit [Inhabited α] in
lemma mk_eta (f : Fifo α cap) :
    ({ buffer := f.buffer, readIdx := f.readIdx, writeIdx := f.writeIdx,
       nbElements := f.nbElements } : Fifo α cap) = f := rfl

/-- Peeling the logical front: with a nonempty buffer, the contents are the
slot at `readIdx` followed by the contents after one read step. -/
lemma toList_cons (f : Fifo α cap) (h : 0 < f.nbElements) (hr : f.readIdx < cap) :
    f.toList = f.buffer.getD f.readIdx default ::
      Fifo.toList ({ f with readIdx := (f.readIdx + 1) % cap,
                            nbElements := f.nbElements - 1 } : Fifo α cap) := by
  obtain ⟨k, hk⟩ : ∃ k, f.nbElements = k + 1 := ⟨f.nbElements - 1, by omega⟩
  simp only [Fifo.toList, hk, Nat.add_sub_cancel]
  rw [List.range_succ_eq_map]
  simp only [List.map_cons, List.map_map]
  refine congrArg₂ _ ?_ ?_
  · rw [Nat.add_zero, Nat.mod_eq_of_lt hr]
  · refine List.map_congr_left ?_
    intro i _
    simp only [Function.comp_apply]
    refine congrArg (fun j => f.buffer.getD j default) ?_
    rw [Nat.mod_add_mod]
    congr 1
    omega

/-- Exact behaviour of the `pull` loop: it removes and returns the first
`min availSpace count` logical elements and reports the leftover space. -/
lemma pullLoop_spec (n : Nat) (f : Fifo α cap) (hlen : f.buffer.length = cap)
    (hr : f.readIdx < cap) :
    Fifo.pullLoop f n =
      (f.toList.take n,
       { f with readIdx := (f.readIdx + min n f.nbElements) % cap,
                nbElements := f.nbElements - min n f.nbElements },
       n - min n f.nbElements) := by
  induction n generalizing f with
  | zero =>
    simp [Fifo.pullLoop, Nat.mod_eq_of_lt hr]
  | succ a ih =>
    by_cases h : 0 < f.nbElements
    · have hcons := toList_cons f h hr
      have hcap : 0 < cap := lt_of_le_of_lt (Nat.zero_le _) hr
      rw [Fifo.pullLoop]
      simp only [h, if_pos]
      rw [ih { f with readIdx := (f.readIdx + 1) % cap, nbElements := f.nbElements - 1 }
          hlen (Nat.mod_lt _ hcap)]
      simp only [hcons, List.take_succ_cons, Prod.mk.injEq, Fifo.mk.injEq, true_and]
      refine ⟨⟨?_, ?_⟩, ?_⟩
      · rw [Nat.mod_add_mod]; congr 1; omega
      · omega
      · omega
    · have h0 : f.nbElements = 0 := by omega
      rw [Fifo.pullLoop]
      simp only [h0, toList_nil f h0, gt_iff_lt, lt_self_iff_false, if_false,
        List.take_nil, Nat.min_zero, Nat.add_zero, Nat.sub_zero, Nat.mod_eq_of_lt hr,
        Prod.mk.injEq, true_and]
      refine ⟨?_, trivial⟩
      rw [← h0]

/-- The `read` loop computes exactly what the `pull` loop does, on the local
copies of the members. -/
lemma readLoop_eq_pullLoop (n : Nat) (f : Fifo α cap) :
    Fifo.readLoop cap f.buffer f.readIdx f.nbElements n =
      ((Fifo.pullLoop f n).1, (Fifo.pullLoop f n).2.2) := by
  induction n generalizing f with
  | zero => rfl
  | succ a ih =>
    rw [Fifo.readLoop, Fifo.pullLoop]
    by_cases h : 0 < f.nbElements
    · simp only [h, if_pos]
      rw [ih { f with readIdx := (f.readIdx + 1) % cap, nbElements := f.nbElements - 1 }]
    · simp [h]

omit [Inhabited α] in
/-- With buffers full, `writeIdx` and `readIdx` coincide. -/
lemma wf_full_eq (f : Fifo α cap) (hwf : f.WF) (hfull : f.nbElements = cap) :
    f.writeIdx = f.readIdx := by
  rw [hwf.2.2.2.2, hfull, Nat.add_mod_right, Nat.mod_eq_of_lt hwf.2.1]

/-- One write step into a free slot: the element lands at the logical end. -/
lemma toList_write_step (f : Fifo α cap) (e : α) (hwf : f.WF)
    (hlt : f.nbElements < cap) :
    Fifo.toList ({ f with buffer := f.buffer.set f.writeIdx e,
                          writeIdx := (f.writeIdx + 1) % cap,
                          nbElements := f.nbElements + 1 } : Fifo α cap) =
      f.toList ++ [e] := by
  obtain ⟨hlen, hr, hw, hnb, heq⟩ := hwf
  simp only [Fifo.toList]
  rw [List.range_succ, List.map_append, List.map_cons, List.map_nil]
  refine congrArg₂ _ ?_ ?_
  · refine List.map_congr_left ?_
    intro i hi
    rw [List.mem_range] at hi
    have hne : f.writeIdx ≠ (f.readIdx + i) % cap := by
      rw [heq]
      intro hmod
      have hcancel : f.nbElements ≡ i [MOD cap] :=
        Nat.ModEq.add_left_cancel' f.readIdx hmod
      have : f.nbElements = i := by
        have h1 := hcancel
        unfold Nat.ModEq at h1
        rw [Nat.mod_eq_of_lt hlt, Nat.mod_eq_of_lt (by omega)] at h1
        exact h1
      omega
    have hlt2 : (f.readIdx + i) % cap < f.buffer.length := by
      rw [hlen]; exact Nat.mod_lt _ (by omega)
    rw [List.getD_eq_getElem _ _ (by simpa using hlt2),
        List.getD_eq_getElem _ _ hlt2]
    exact List.getElem_set_ne hne _
  · have hwlt : f.writeIdx < f.buffer.length := by rw [hlen]; exact hw
    have hidx : (f.readIdx + f.nbElements) % cap = f.writeIdx := heq.symm
    rw [hidx, List.getD_eq_getElem _ _ (by simpa using hwlt)]
    simp [List.getElem_set_self]

omit [Inhabited α] in
/-- Writing into a free slot preserves the class invariant. -/
lemma wf_write_step (f : Fifo α cap) (e : α) (hwf : f.WF)
    (hlt : f.nbElements < cap) :
    Fifo.WF ({ f with buffer := f.buffer.set f.writeIdx e,
                      writeIdx := (f.writeIdx + 1) % cap,
                      nbElements := f.nbElements + 1 } : Fifo α cap) := by
  obtain ⟨hlen, hr, hw, hnb, heq⟩ := hwf
  have hcap : 0 < cap := by omega
  refine ⟨by simpa using hlen, hr, Nat.mod_lt _ hcap,
    (by show f.nbElements + 1 ≤ cap; omega), ?_⟩
  show (f.writeIdx + 1) % cap = (f.readIdx + (f.nbElements + 1)) % cap
  rw [heq, Nat.mod_add_mod, Nat.add_assoc]

/-- One overwrite step on a full buffer: the oldest element is dropped and
the new one lands at the logical end. -/
lemma overwrite_step (f : Fifo α cap) (e : α) (hwf : f.WF)
    (hfull : f.nbElements = cap) :
    Fifo.toList ({ f with buffer := f.buffer.set f.writeIdx e,
                          writeIdx := (f.writeIdx + 1) % cap,
                          readIdx := (f.writeIdx + 1) % cap } : Fifo α cap) =
        f.toList.drop 1 ++ [e] ∧
      Fifo.WF ({ f with buffer := f.buffer.set f.writeIdx e,
                        writeIdx := (f.writeIdx + 1) % cap,
                        readIdx := (f.writeIdx + 1) % cap } : Fifo α cap) := by
  obtain ⟨hlen, hr, hw, hnb, heq⟩ := hwf
  have hcap : 0 < cap := by omega
  have hwr : f.writeIdx = f.readIdx := wf_full_eq f ⟨hlen, hr, hw, hnb, heq⟩ hfull
  set g : Fifo α cap :=
    { f with readIdx := (f.readIdx + 1) % cap, nbElements := cap - 1 } with hg
  have hgnb : g.nbElements = cap - 1 := by rw [hg]
  have hgwf : g.WF := by
    refine ⟨hlen, Nat.mod_lt _ hcap, hw, by omega, ?_⟩
    show f.writeIdx = ((f.readIdx + 1) % cap + (cap - 1)) % cap
    rw [Nat.mod_add_mod]
    have h1 : f.readIdx + 1 + (cap - 1) = f.readIdx + cap := by omega
    rw [h1, Nat.add_mod_right, Nat.mod_eq_of_lt hr, hwr]
  have hglt : g.nbElements < cap := by omega
  have h2 : cap - 1 + 1 = cap := by omega
  have hstruct :
      ({ f with buffer := f.buffer.set f.writeIdx e,
                writeIdx := (f.writeIdx + 1) % cap,
                readIdx := (f.writeIdx + 1) % cap } : Fifo α cap) =
      ({ g with buffer := g.buffer.set g.writeIdx e,
                writeIdx := (g.writeIdx + 1) % cap,
                nbElements := g.nbElements + 1 } : Fifo α cap) := by
    simp only [hg, hwr, h2, hfull]
  rw [hstruct]
  refine ⟨?_, wf_write_step g e hgwf hglt⟩
  rw [toList_write_step g e hgwf hglt]
  have hcons := toList_cons f (by omega) hr
  have hgeq : ({ f with readIdx := (f.readIdx + 1) % cap,
                        nbElements := f.nbElements - 1 } : Fifo α cap) = g := by
    simp only [hg, hfull]
  rw [hgeq] at hcons
  rw [hcons]
  simp

/-- The push loop, when the whole source fits in the free space, appends it
to the logical contents, grows `count` by the source length, counts every
element, and preserves the invariant. -/
lemma pushLoop_append (src : List α) : ∀ (f : Fifo α cap) (c : Nat), f.WF →
    f.nbElements + src.length ≤ cap →
    (Fifo.pushLoop f src c).1.toList = f.toList ++ src ∧
    (Fifo.pushLoop f src c).1.WF ∧
    (Fifo.pushLoop f src c).1.nbElements = f.nbElements + src.length ∧
    (Fifo.pushLoop f src c).1.readIdx = f.readIdx ∧
    (Fifo.pushLoop f src c).2 = c + src.length := by
  induction src with
  | nil =>
    intro f c hwf _
    exact ⟨by simp [Fifo.pushLoop], hwf, rfl, rfl, rfl⟩
  | cons e rest ih =>
    intro f c hwf hroom
    have hlt : f.nbElements < cap := by
      simp only [List.length_cons] at hroom; omega
    rw [Fifo.pushLoop]
    simp only [hlt, if_pos]
    set f2 : Fifo α cap :=
      { f with buffer := f.buffer.set f.writeIdx e,
               writeIdx := (f.writeIdx + 1) % cap,
               nbElements := f.nbElements + 1 } with hf2
    have hf2nb : f2.nbElements = f.nbElements + 1 := by rw [hf2]
    have hstep := ih f2 (c + 1) (by rw [hf2]; exact wf_write_step f e hwf hlt)
      (by rw [hf2nb]; simp only [List.length_cons] at hroom; omega)
    refine ⟨?_, hstep.2.1, ?_, ?_, ?_⟩
    · rw [hstep.1, hf2, toList_write_step f e hwf hlt]
      simp
    · rw [hstep.2.2.1, hf2nb]
      simp only [List.length_cons]
      omega
    · rw [hstep.2.2.2.1, hf2]
    · rw [hstep.2.2.2.2]
      simp only [List.length_cons]
      omega

/-- The push loop preserves the class invariant unconditionally. -/
lemma pushLoop_wf (src : List α) : ∀ (f : Fifo α cap) (c : Nat), f.WF →
    (Fifo.pushLoop f src c).1.WF := by
  induction src with
  | nil => intro f c hwf; exact hwf
  | cons e rest ih =>
    intro f c hwf
    rw [Fifo.pushLoop]
    by_cases hlt : f.nbElements < cap
    · simp only [hlt, if_pos]
      exact ih _ _ (wf_write_step f e hwf hlt)
    · simp only [hlt, if_neg, not_false_iff]
      have hfull : f.nbElements = cap := by
        have := hwf.2.2.2.1; omega
      exact ih _ _ ((overwrite_step f e hwf hfull).2)

omit [Inhabited α] in
/-- The copied counter grows by `min (source length) (free space)`. -/
lemma pushLoop_count (src : List α) : ∀ (f : Fifo α cap) (c : Nat),
    f.nbElements ≤ cap →
    (Fifo.pushLoop f src c).2 = c + min src.length (cap - f.nbElements) := by
  induction src with
  | nil => intro f c _; simp [Fifo.pushLoop]
  | cons e rest ih =>
    intro f c hnb
    rw [Fifo.pushLoop]
    by_cases hlt : f.nbElements < cap
    · simp only [hlt, if_pos]
      rw [ih _ (c + 1) (by show f.nbElements + 1 ≤ cap; omega)]
      show c + 1 + min rest.length (cap - (f.nbElements + 1)) =
        c + min (rest.length + 1) (cap - f.nbElements)
      omega
    · simp only [hlt, if_neg, not_false_iff]
      rw [ih _ c (by show f.nbElements ≤ cap; omega)]
      show c + min rest.length (cap - f.nbElements) =
        c + min (rest.length + 1) (cap - f.nbElements)
      omega

/-- The push loop on a full buffer keeps the last `Capacity` elements of
`contents ++ source`, leaves `count` at `Capacity`, and counts nothing. -/
lemma pushLoop_overwrite (src : List α) : ∀ (f : Fifo α cap) (c : Nat),
    f.WF → f.nbElements = cap →
    (Fifo.pushLoop f src c).1.toList = (f.toList ++ src).drop src.length ∧
    (Fifo.pushLoop f src c).1.nbElements = cap ∧
    (Fifo.pushLoop f src c).2 = c := by
  induction src with
  | nil =>
    intro f c hwf hfull
    exact ⟨by simp [Fifo.pushLoop], hfull, rfl⟩
  | cons e rest ih =>
    intro f c hwf hfull
    have hcap : 0 < cap := by have := hwf.2.1; omega
    have hlt : ¬f.nbElements < cap := by omega
    rw [Fifo.pushLoop]
    simp only [hlt, if_neg, not_false_iff]
    obtain ⟨hto, hwf2⟩ := overwrite_step f e hwf hfull
    have hnb2 : ({ f with buffer := f.buffer.set f.writeIdx e,
                          writeIdx := (f.writeIdx + 1) % cap,
                          readIdx := (f.writeIdx + 1) % cap } : Fifo α cap).nbElements
        = cap := hfull
    have hrec := ih _ c hwf2 hnb2
    refine ⟨?_, hrec.2.1, hrec.2.2⟩
    rw [hrec.1, hto]
    have hne : f.toList ≠ [] := by
      have := toList_length f
      intro hnil
      rw [hnil] at this
      simp at this
      omega
    have hlen1 : 1 ≤ f.toList.length := by
      rw [toList_length f, hfull]; omega
    have hd1 : (f.toList ++ (e :: rest)).drop 1 = f.toList.drop 1 ++ (e :: rest) :=
      List.drop_append_of_le_length hlen1
    calc (f.toList.drop 1 ++ [e] ++ rest).drop rest.length
        = ((f.toList ++ (e :: rest)).drop 1).drop rest.length := by
          rw [hd1]; simp
      _ = (f.toList ++ (e :: rest)).drop (rest.length + 1) := by
          rw [List.drop_drop, Nat.add_comm]

/-- Advancing `readIdx` by `m` while removing `m` elements drops the first
`m` logical elements. -/
lemma toList_drop (f : Fifo α cap) (m : Nat) :
    Fifo.toList ({ f with readIdx := (f.readIdx + m) % cap,
                          nbElements := f.nbElements - m } : Fifo α cap) =
      f.toList.drop m := by
  refine List.ext_getElem ?_ ?_
  · simp [Fifo.toList]
  · intro i h1 h2
    simp only [Fifo.toList, List.getElem_map, List.getElem_range, List.getElem_drop]
    refine congrArg (fun j => f.buffer.getD j default) ?_
    rw [Nat.mod_add_mod]
    congr 1
    omega

omit [Inhabited α] in
/-- A fitting non-overwrite push takes the unguarded loop path. -/
lemma push_fit (f : Fifo α cap) (src : List α) (hnb : f.nbElements ≤ cap)
    (hroom : f.nbElements + src.length ≤ cap) :
    f.push src false = Fifo.pushLoop f src 0 := by
  rw [Fifo.push, if_neg]
  rintro ⟨-, h2⟩
  omega

/-- The default constructor establishes the class invariant. -/
lemma wf_new (hcap : 0 < cap) : (Fifo.new α cap).WF := by
  refine ⟨by simp [Fifo.new], hcap, hcap, by simp [Fifo.new], by simp [Fifo.new]⟩

/-- `push` preserves the class invariant. -/
lemma wf_push (f : Fifo α cap) (src : List α) (ow : Bool) (hwf : f.WF) :
    (f.push src ow).1.WF := by
  rw [Fifo.push]
  split
  · exact hwf
  · exact pushLoop_wf src f 0 hwf

/-- `pop_back` preserves the class invariant. -/
lemma wf_pop (f : Fifo α cap) (d : α) (hwf : f.WF) : (f.pop_back d).2.2.WF := by
  obtain ⟨hlen, hr, hw, hnb, heq⟩ := hwf
  rw [Fifo.pop_back]
  split
  · next hne =>
    have hcap : 0 < cap := by omega
    refine ⟨hlen, Nat.mod_lt _ hcap, hw, by show f.nbElements - 1 ≤ cap; omega, ?_⟩
    show f.writeIdx = ((f.readIdx + 1) % cap + (f.nbElements - 1)) % cap
    rw [Nat.mod_add_mod]
    have h1 : f.readIdx + 1 + (f.nbElements - 1) = f.readIdx + f.nbElements := by omega
    rw [h1]
    exact heq
  · exact ⟨hlen, hr, hw, hnb, heq⟩

/-- The state left by `pull`, explicitly. -/
lemma pull_state (f : Fifo α cap) (n : Nat) (hlen : f.buffer.length = cap)
    (hr : f.readIdx < cap) :
    (f.pull n).2.1 =
      ({ f with readIdx := (f.readIdx + min n f.nbElements) % cap,
                nbElements := f.nbElements - min n f.nbElements } : Fifo α cap) := by
  show (Fifo.pullLoop f n).2.1 = _
  rw [pullLoop_spec n f hlen hr]

/-- `pull` preserves the class invariant. -/
lemma wf_pull (f : Fifo α cap) (n : Nat) (hwf : f.WF) : (f.pull n).2.1.WF := by
  obtain ⟨hlen, hr, hw, hnb, heq⟩ := hwf
  rw [pull_state f n hlen hr]
  have hcap : 0 < cap := by omega
  refine ⟨hlen, Nat.mod_lt _ hcap, hw,
    by show f.nbElements - min n f.nbElements ≤ cap; omega, ?_⟩
  show f.writeIdx =
    ((f.readIdx + min n f.nbElements) % cap +
      (f.nbElements - min n f.nbElements)) % cap
  rw [Nat.mod_add_mod]
  have h1 : f.readIdx + min n f.nbElements + (f.nbElements - min n f.nbElements) =
      f.readIdx + f.nbElements := by omega
  rw [h1]
  exact heq

omit [Inhabited α] in
/-- `drop` preserves the class invariant. -/
lemma wf_drop (f : Fifo α cap) (n : Nat) (hwf : f.WF) : (f.drop n).1.WF := by
  obtain ⟨hlen, hr, hw, hnb, heq⟩ := hwf
  have hcap : 0 < cap := by omega
  refine ⟨hlen, Nat.mod_lt _ hcap, hw,
    by show f.nbElements - min f.nbElements n ≤ cap; omega, ?_⟩
  show f.writeIdx =
    ((f.readIdx + min f.nbElements n) % cap +
      (f.nbElements - min f.nbElements n)) % cap
  rw [Nat.mod_add_mod]
  have h1 : f.readIdx + min f.nbElements n + (f.nbElements - min f.nbElements n) =
      f.readIdx + f.nbElements := by omega
  rw [h1]
  exact heq

omit [Inhabited α] in
/-- `reset` preserves the class invariant. -/
lemma wf_reset (f : Fifo α cap) (hwf : f.WF) : f.reset.WF := by
  obtain ⟨hlen, hr, -, -, -⟩ := hwf
  exact ⟨hlen, by show (0 : Nat) < cap; omega, by show (0 : Nat) < cap; omega,
    by show (0 : Nat) ≤ cap; omega, by simp [Fifo.reset]⟩

/-- Every operation of the public interface preserves the class invariant. -/
lemma applyOp_wf (f : Fifo α cap) (op : Op α) (hwf : f.WF) : (applyOp f op).WF := by
  cases op with
  | pushOp src ow => exact wf_push f src ow hwf
  | popOp => exact wf_pop f default hwf
  | pullOp n => exact wf_pull f n hwf
  | readOp n => exact hwf
  | dropOp n => exact wf_drop f n hwf
  | resetOp => exact wf_reset f hwf

/-- Any sequence of operations preserves the class invariant. -/
lemma runOps_wf (ops : List (Op α)) : ∀ f : Fifo α cap, f.WF → (runOps f ops).WF := by
  induction ops with
  | nil => intro f hwf; exact hwf
  | cons op rest ih => intro f hwf; exact ih (applyOp f op) (applyOp_wf f op hwf)

/-- A fitting sequence of non-overwrite pushes concatenates the chunks onto
the logical contents. -/
lemma pushSeq_spec (css : List (List α)) : ∀ f : Fifo α cap, f.WF →
    f.nbElements + css.flatten.length ≤ cap →
    (pushSeq f css).toList = f.toList ++ css.flatten ∧
    (pushSeq f css).WF ∧
    (pushSeq f css).nbElements = f.nbElements + css.flatten.length := by
  induction css with
  | nil =>
    intro f hwf _
    exact ⟨by simp [pushSeq], hwf, by simp [pushSeq]⟩
  | cons cs rest ih =>
    intro f hwf hroom
    have hlen : (List.flatten (cs :: rest)).length = cs.length + rest.flatten.length := by
      simp
    have hfit : f.nbElements + cs.length ≤ cap := by
      rw [hlen] at hroom; omega
    have hpush := pushLoop_append cs f 0 hwf hfit
    have hstep : pushSeq f (cs :: rest) = pushSeq (f.push cs false).1 rest := rfl
    rw [hstep, push_fit f cs hwf.2.2.2.1 hfit]
    have hrec := ih (Fifo.pushLoop f cs 0).1 hpush.2.1
      (by rw [hpush.2.2.1]; rw [hlen] at hroom; omega)
    refine ⟨?_, hrec.2.1, ?_⟩
    · rw [hrec.1, hpush.1]
      simp
    · rw [hrec.2.2, hpush.2.2.1, hlen]
      omega

/-- A sequence of pulls delivers a prefix of the logical contents: exactly
the first `sum of the requested sizes` elements (all of them once the
requests add up to the count). -/
lemma pullSeq_spec (ns : List Nat) : ∀ f : Fifo α cap, f.WF →
    pullSeq f ns = f.toList.take ns.sum := by
  induction ns with
  | nil => intro f hwf; simp [pullSeq]
  | cons n rest ih =>
    intro f hwf
    have hout : (f.pull n).1 = f.toList.take n := by
      show (Fifo.pullLoop f n).1 = _
      rw [pullLoop_spec n f hwf.1 hwf.2.1]
    have hstate := pull_state f n hwf.1 hwf.2.1
    have hrec := ih (f.pull n).2.1 (wf_pull f n hwf)
    rw [pullSeq, hrec, hout, hstate, toList_drop f (min n f.nbElements)]
    by_cases hle : n ≤ f.nbElements
    · rw [Nat.min_eq_left hle]
      show _ = f.toList.take (n + rest.sum)
      rw [List.take_add]
    · have hnb := hwf.2.2.2.1
      have hlen2 : f.toList.length ≤ n := by rw [toList_length]; omega
      show _ = f.toList.take (n + rest.sum)
      rw [Nat.min_eq_right (by omega), List.take_of_length_le hlen2,
        List.take_of_length_le (le_trans hlen2 (Nat.le_add_right n rest.sum)),
        List.drop_eq_nil_of_le (le_of_eq (toList_length f))]
      simp

/-- The comparison loop of `operator==` succeeds exactly when the two
buffers agree on the `n` slots reached from the two starting indices. -/
lemma eqLoop_spec [DecidableEq α] (n : Nat) : ∀ (a b : Fifo α cap) (i j : Nat),
    i < cap → j < cap →
    (Fifo.eqLoop a b i j n = true ↔
      ∀ k < n, a.buffer.getD ((i + k) % cap) default =
        b.buffer.getD ((j + k) % cap) default) := by
  induction n with
  | zero =>
    intro a b i j hi hj
    simp [Fifo.eqLoop]
  | succ m ih =>
    intro a b i j hi hj
    have hcap : 0 < cap := by omega
    rw [Fifo.eqLoop]
    by_cases hne : a.buffer.getD i default ≠ b.buffer.getD j default
    · rw [if_pos hne]
      constructor
      · intro hfalse
        exact absurd hfalse (by simp)
      · intro hall
        exfalso
        have h0 := hall 0 (Nat.succ_pos m)
        rw [Nat.add_zero, Nat.add_zero, Nat.mod_eq_of_lt hi, Nat.mod_eq_of_lt hj] at h0
        exact hne h0
    · rw [if_neg hne,
        ih a b ((i + 1) % cap) ((j + 1) % cap) (Nat.mod_lt _ hcap) (Nat.mod_lt _ hcap)]
      constructor
      · intro hall k hk
        cases k with
        | zero =>
          rw [Nat.add_zero, Nat.add_zero, Nat.mod_eq_of_lt hi, Nat.mod_eq_of_lt hj]
          exact not_not.mp hne
        | succ q =>
          have hq := hall q (by omega)
          rw [Nat.mod_add_mod, Nat.mod_add_mod] at hq
          have e1 : i + (q + 1) = i + 1 + q := by omega
          have e2 : j + (q + 1) = j + 1 + q := by omega
          rw [e1, e2]
          exact hq
      · intro hall q hq
        have h1 := hall (q + 1) (by omega)
        rw [Nat.mod_add_mod, Nat.mod_add_mod]
        have e1 : i + 1 + q = i + (q + 1) := by omega
        have e2 : j + 1 + q = j + (q + 1) := by omega
        rw [e1, e2]
        exact h1

/-- C1: on any invariant-respecting state, if `push` is called with
`overwrite == false` and the source length exceeds `Capacity - count`
(insufficient free space), the call returns 0 and leaves the whole state
(storage, `readIdx`, `writeIdx`, `count`) unchanged: no partial push. -/
theorem push_rejects_when_no_space (f : Fifo Int cap) (src : List Int)
    (hnb : f.nbElements ≤ cap)
    (hexceeds : (cap : Int) - (f.nbElements : Int) < (src.length : Int)) :
    f.push src false = (f, 0) := by
  rw [Fifo.push, if_pos]
  exact ⟨by simp, by omega⟩

/-- Witness for C1: a single extra element on a full Capacity-5 buffer is
declined and nothing changes. -/
theorem push_rejects_when_no_space_witness :
    full5.push [6] false = (full5, 0) :=
  push_rejects_when_no_space full5 [6] (by decide) (by decide)

/-- C2, counterexample: on the empty Capacity-5 buffer, pushing a
6-element source with `overwrite == false` does NOT return 5 — the
all-or-nothing guard rejects the whole call. -/
theorem push_six_into_empty5_not_five :
    ¬((empty5.push [1, 2, 3, 4, 5, 6] false).2 = 5) := by decide

/-- C2, amended: on the empty Capacity-5 buffer, pushing a 6-element
source with `overwrite == false` copies nothing and returns 0, leaving the
buffer unchanged. -/
theorem push_six_into_empty5_rejected :
    empty5.push [1, 2, 3, 4, 5, 6] false = (empty5, 0) := by decide

/-- C3: with `overwrite == true` the return value counts only the elements
that grew `count` (`min (source length) (Capacity - initial count)`); once
the buffer is full each further write keeps `count` at `Capacity`, leaves
`readIndex` equal to the new `writeIndex`, and retains exactly the last
`Capacity` elements of `old contents ++ source`.  In particular pushing
`{11,12,13,14,15}` onto a full Capacity-5 buffer holding `{1,2,3,4,5}`
yields contents `{11,12,13,14,15}`, count 5, return value 0. -/
theorem push_overwrite_semantics :
    (∀ (c : Nat) (f : Fifo Int c) (src : List Int), f.WF →
      ((f.push src true).2 = min src.length (c - f.nbElements) ∧
        (f.nbElements = c →
          (f.push src true).1.nbElements = c ∧
          (f.push src true).1.readIdx = (f.push src true).1.writeIdx ∧
          (f.push src true).1.toList = (f.toList ++ src).drop src.length))) ∧
    ((full5.push [11, 12, 13, 14, 15] true).1.toList = [11, 12, 13, 14, 15] ∧
      (full5.push [11, 12, 13, 14, 15] true).1.nbElements = 5 ∧
      (full5.push [11, 12, 13, 14, 15] true).2 = 0) := by
  constructor
  · intro c f src hwf
    have hpush : f.push src true = Fifo.pushLoop f src 0 := by
      rw [Fifo.push, if_neg]
      rintro ⟨h1, -⟩
      simp at h1
    rw [hpush]
    refine ⟨by rw [pushLoop_count src f 0 hwf.2.2.2.1]; omega, ?_⟩
    intro hfull
    obtain ⟨hto, hnb, -⟩ := pushLoop_overwrite src f 0 hwf hfull
    exact ⟨hnb, (wf_full_eq _ (pushLoop_wf src f 0 hwf) hnb).symm ▸
      (wf_full_eq _ (pushLoop_wf src f 0 hwf) hnb), hto⟩
  · exact ⟨by decide, by decide, by decide⟩

/-- Witness for C3: the general clause applied to the full Capacity-5
buffer and one extra element. -/
theorem push_overwrite_semantics_witness :
    (full5.push [99] true).2 = min 1 (5 - full5.nbElements) ∧
    (full5.push [99] true).1.nbElements = 5 :=
  ⟨(push_overwrite_semantics.1 5 full5 [99] (by decide)).1,
    ((push_overwrite_semantics.1 5 full5 [99] (by decide)).2 (by decide)).1⟩

/-- C4: FIFO ordering — starting from an empty buffer, after any sequence
of non-overwrite pushes whose total length fits the capacity, any sequence
of pulls whose requests add up to at least that total delivers exactly the
pushed elements in push order. -/
theorem fifo_ordering (c : Nat) (css : List (List Int)) (ns : List Nat)
    (hcap : 0 < c) (hroom : css.flatten.length ≤ c)
    (hdrain : css.flatten.length ≤ ns.sum) :
    pullSeq (pushSeq (Fifo.new Int c) css) ns = css.flatten := by
  have h0 : (Fifo.new Int c).WF := wf_new hcap
  have hps := pushSeq_spec css (Fifo.new Int c) h0
    (by show (0 : Nat) + css.flatten.length ≤ c; omega)
  have hlist : (pushSeq (Fifo.new Int c) css).toList = css.flatten := by
    rw [hps.1, toList_nil _ rfl]
    simp
  rw [pullSeq_spec ns _ hps.2.1, hlist,
    List.take_of_length_le (le_trans hdrain (le_refl _))]

/-- Witness for C4: two pushes then two pulls on a Capacity-3 buffer. -/
theorem fifo_ordering_witness :
    pullSeq (pushSeq (Fifo.new Int 3) [[1, 2], [3]]) [2, 2] = [1, 2, 3] :=
  fifo_ordering 3 [[1, 2], [3]] [2, 2] (by decide) (by decide) (by decide)

/-- C5: every state reachable from a freshly constructed buffer by any
sequence of push/pop/pull/read/drop/reset operations satisfies the class
invariant: `count ≤ Capacity` (and `0 ≤ count` by type), both indices lie
in `[0, Capacity)`, `writeIndex = (readIndex + count) % Capacity` whenever
`count < Capacity`, and `writeIndex = readIndex` whenever
`count = Capacity`. -/
theorem reachable_states_satisfy_invariant (c : Nat) (hcap : 0 < c)
    (ops : List (Op Int)) :
    (runOps (Fifo.new Int c) ops).nbElements ≤ c ∧
    (runOps (Fifo.new Int c) ops).readIdx < c ∧
    (runOps (Fifo.new Int c) ops).writeIdx < c ∧
    ((runOps (Fifo.new Int c) ops).nbElements < c →
      (runOps (Fifo.new Int c) ops).writeIdx =
        ((runOps (Fifo.new Int c) ops).readIdx +
          (runOps (Fifo.new Int c) ops).nbElements) % c) ∧
    ((runOps (Fifo.new Int c) ops).nbElements = c →
      (runOps (Fifo.new Int c) ops).writeIdx =
        (runOps (Fifo.new Int c) ops).readIdx) := by
  have h := runOps_wf ops (Fifo.new Int c) (wf_new hcap)
  exact ⟨h.2.2.2.1, h.2.1, h.2.2.1, fun _ => h.2.2.2.2,
    fun hfull => wf_full_eq _ h hfull⟩

/-- Witness for C5: a mixed run of operations on a Capacity-3 buffer. -/
theorem reachable_states_satisfy_invariant_witness :
    (runOps (Fifo.new Int 3)
        [Op.pushOp [7, 8] false, Op.popOp, Op.pushOp [9, 10] true,
          Op.dropOp 5, Op.pushOp [1] false]).nbElements ≤ 3 ∧
    (runOps (Fifo.new Int 3)
        [Op.pushOp [7, 8] false, Op.popOp, Op.pushOp [9, 10] true,
          Op.dropOp 5, Op.pushOp [1] false]).readIdx < 3 ∧
    (runOps (Fifo.new Int 3)
        [Op.pushOp [7, 8] false, Op.popOp, Op.pushOp [9, 10] true,
          Op.dropOp 5, Op.pushOp [1] false]).writeIdx < 3 ∧
    ((runOps (Fifo.new Int 3)
        [Op.pushOp [7, 8] false, Op.popOp, Op.pushOp [9, 10] true,
          Op.dropOp 5, Op.pushOp [1] false]).nbElements < 3 →
      (runOps (Fifo.new Int 3)
        [Op.pushOp [7, 8] false, Op.popOp, Op.pushOp [9, 10] true,
          Op.dropOp 5, Op.pushOp [1] false]).writeIdx =
        ((runOps (Fifo.new Int 3)
          [Op.pushOp [7, 8] false, Op.popOp, Op.pushOp [9, 10] true,
            Op.dropOp 5, Op.pushOp [1] false]).readIdx +
          (runOps (Fifo.new Int 3)
            [Op.pushOp [7, 8] false, Op.popOp, Op.pushOp [9, 10] true,
              Op.dropOp 5, Op.pushOp [1] false]).nbElements) % 3) ∧
    ((runOps (Fifo.new Int 3)
        [Op.pushOp [7, 8] false, Op.popOp, Op.pushOp [9, 10] true,
          Op.dropOp 5, Op.pushOp [1] false]).nbElements = 3 →
      (runOps (Fifo.new Int 3)
        [Op.pushOp [7, 8] false, Op.popOp, Op.pushOp [9, 10] true,
          Op.dropOp 5, Op.pushOp [1] false]).writeIdx =
        (runOps (Fifo.new Int 3)
          [Op.pushOp [7, 8] false, Op.popOp, Op.pushOp [9, 10] true,
            Op.dropOp 5, Op.pushOp [1] false]).readIdx) :=
  reachable_states_satisfy_invariant 3 (by decide)
    [Op.pushOp [7, 8] false, Op.popOp, Op.pushOp [9, 10] true,
      Op.dropOp 5, Op.pushOp [1] false]

/-- C6: `pull` copies exactly `min availableSpace count` elements, namely
the logical front of the buffer in order, advances `readIndex` and
decrements `count` by that number, returns it, and leaves storage and
`writeIndex` alone; `pull 0` returns 0 and changes nothing. -/
theorem pull_copies_min_and_advances (f : Fifo Int cap) (n : Nat) (hwf : f.WF) :
    (f.pull n).1 = f.toList.take n ∧
    (f.pull n).2.2 = min n f.nbElements ∧
    (f.pull n).2.1.nbElements = f.nbElements - min n f.nbElements ∧
    (f.pull n).2.1.readIdx = (f.readIdx + min n f.nbElements) % cap ∧
    (f.pull n).2.1.writeIdx = f.writeIdx ∧
    (f.pull n).2.1.buffer = f.buffer ∧
    (f.pull n).2.1.toList = f.toList.drop (min n f.nbElements) ∧
    f.pull 0 = ([], f, 0) := by
  obtain ⟨hlen, hr, -, -, -⟩ := hwf
  have hs := pull_state f n hlen hr
  refine ⟨?_, ?_, by rw [hs], by rw [hs], by rw [hs], by rw [hs], ?_, rfl⟩
  · show (Fifo.pullLoop f n).1 = _
    rw [pullLoop_spec n f hlen hr]
  · show n - (Fifo.pullLoop f n).2.2 = _
    rw [pullLoop_spec n f hlen hr]
    show n - (n - min n f.nbElements) = _
    omega
  · rw [hs, toList_drop f (min n f.nbElements)]

/-- Witness for C6: a count-4 buffer pulled with `availableSpace = 10`
returns 4 and drains to count 0. -/
theorem pull_copies_min_and_advances_witness :
    ((empty5.push [1, 2, 3, 4] false).1.pull 10).2.2 = 4 ∧
    ((empty5.push [1, 2, 3, 4] false).1.pull 10).2.1.nbElements = 0 ∧
    ((empty5.push [1, 2, 3, 4] false).1.pull 10).1 = [1, 2, 3, 4] := by
  have h := pull_copies_min_and_advances (empty5.push [1, 2, 3, 4] false).1 10
    (by decide)
  exact ⟨by rw [h.2.1]; decide, by rw [h.2.2.1]; decide, by rw [h.1]; decide⟩

/-- C7: `read` writes the same elements and returns the same value as
`pull` would on the same state, but the buffer is left entirely unchanged,
so repeating `read` with the same arguments yields the same output. -/
theorem read_eq_pull_nondestructive (f : Fifo α cap) (n : Nat) :
    (f.read n).1 = (f.pull n).1 ∧
    (f.read n).2.2 = (f.pull n).2.2 ∧
    (f.read n).2.1 = f ∧
    (f.read n).2.1.read n = f.read n := by
  have h := readLoop_eq_pullLoop n f
  refine ⟨?_, ?_, rfl, rfl⟩
  · show (Fifo.readLoop cap f.buffer f.readIdx f.nbElements n).1 =
      (Fifo.pullLoop f n).1
    rw [h]
  · show n - (Fifo.readLoop cap f.buffer f.readIdx f.nbElements n).2 =
      n - (Fifo.pullLoop f n).2.2
    rw [h]

/-- C8: `pop_back` on an empty buffer returns false and touches neither the
destination nor the buffer; on a nonempty buffer it delivers the element at
`readIndex`, advances `readIndex` modulo `Capacity`, decrements `count`,
and returns true. -/
theorem pop_back_spec (f : Fifo α cap) (d : α) :
    (f.nbElements = 0 → f.pop_back d = (false, d, f)) ∧
    (f.nbElements ≠ 0 →
      f.pop_back d = (true, f.buffer.getD f.readIdx default,
        ({ f with readIdx := (f.readIdx + 1) % cap,
                  nbElements := f.nbElements - 1 } : Fifo α cap))) := by
  constructor
  · intro h0
    rw [Fifo.pop_back, if_neg (by simp [h0])]
  · intro hne
    rw [Fifo.pop_back, if_pos hne]

/-- Witness for C8: both branches at concrete Capacity-5 buffers. -/
theorem pop_back_spec_witness :
    empty5.pop_back 7 = (false, 7, empty5) ∧
    full5.pop_back 0 = (true, 1, (⟨[1, 2, 3, 4, 5], 1, 0, 4⟩ : Fifo Int 5)) := by
  refine ⟨(pop_back_spec empty5 7).1 rfl, ?_⟩
  rw [(pop_back_spec full5 0).2 (by decide)]
  decide

/-- C9: `operator==` returns true exactly when the two buffers hold the
same `count` and the same element sequence in logical read order; the
internal `readIndex`/`writeIndex` values play no role beyond locating that
sequence. -/
theorem beq_true_iff_same_content (a b : Fifo Int cap)
    (ha : a.readIdx < cap) (hb : b.readIdx < cap) :
    Fifo.beq a b = true ↔ (a.nbElements = b.nbElements ∧ a.toList = b.toList) := by
  rw [Fifo.beq]
  by_cases hn : a.nbElements = b.nbElements
  · rw [if_neg (by simp [hn]),
      eqLoop_spec a.nbElements a b a.readIdx b.readIdx ha hb]
    constructor
    · intro hall
      refine ⟨hn, List.ext_getElem (by simp [toList_length, hn]) ?_⟩
      intro k h1 h2
      simp only [Fifo.toList, List.getElem_map, List.getElem_range]
      have hk : k < a.nbElements := by simpa [toList_length] using h1
      exact hall k hk
    · rintro ⟨-, hteq⟩ k hk
      have h1 : k < a.toList.length := by rw [toList_length]; exact hk
      have h2 := List.getElem_of_eq hteq h1
      have hgoal := h2
      simp only [Fifo.toList, List.getElem_map, List.getElem_range] at hgoal
      exact hgoal
  · rw [if_pos hn]
    constructor
    · intro hfalse
      exact absurd hfalse (by simp)
    · rintro ⟨h1, -⟩
      exact absurd h1 hn

/-- Witness for C9: two buffers with different physical indices but the
same logical contents `[1, 2]` compare equal. -/
theorem beq_true_iff_same_content_witness :
    Fifo.beq (⟨[1, 2, 0, 0, 0], 0, 2, 2⟩ : Fifo Int 5)
      (⟨[9, 9, 9, 1, 2], 3, 0, 2⟩ : Fifo Int 5) = true :=
  (beq_true_iff_same_content (⟨[1, 2, 0, 0, 0], 0, 2, 2⟩ : Fifo Int 5)
      (⟨[9, 9, 9, 1, 2], 3, 0, 2⟩ : Fifo Int 5) (by decide) (by decide)).mpr
    ⟨by decide, by decide⟩

/-- C10: on a full buffer the single-element `push(v, overwrite = true)`
returns false — the boolean is `copied count ≠ 0` and no free slot was
filled — even though it replaces the oldest element with `v` and advances
the logical front. -/
theorem push1_full_returns_false (f : Fifo Int cap) (v : Int)
    (hwf : f.WF) (hfull : f.nbElements = cap) :
    (f.push1 v true).1 = false ∧
    (f.push1 v true).2.toList = f.toList.drop 1 ++ [v] ∧
    (f.push1 v true).2.nbElements = cap := by
  have hpush : f.push [v] true = Fifo.pushLoop f [v] 0 := by
    rw [Fifo.push, if_neg]
    rintro ⟨h1, -⟩
    simp at h1
  obtain ⟨hto, hnb, hcnt⟩ := pushLoop_overwrite [v] f 0 hwf hfull
  refine ⟨?_, ?_, ?_⟩
  · simp only [Fifo.push1, hpush, hcnt]
    simp
  · simp only [Fifo.push1, hpush]
    rw [hto]
    show (f.toList ++ [v]).drop 1 = f.toList.drop 1 ++ [v]
    refine List.drop_append_of_le_length ?_
    rw [toList_length, hfull]
    have := hwf.2.1
    omega
  · simp only [Fifo.push1, hpush, hnb]

/-- Witness for C10: overwriting one element of the full Capacity-5 buffer
reports false yet shifts the contents. -/
theorem push1_full_returns_false_witness :
    (full5.push1 99 true).1 = false ∧
    (full5.push1 99 true).2.toList = full5.toList.drop 1 ++ [99] ∧
    (full5.push1 99 true).2.nbElements = 5 :=
  push1_full_returns_false full5 99 (by decide) (by decide)

end StaticFifo
